import Mathlib

/-!
Verification development for the dossier synchronization engine.

The definitions below are shallow embeddings of the Rust sources:
  * `src/api.rs` — `ApiError`, `write_file_data`, `list_files`
  * `src/cli.rs` — the chunked uploader `upload_file` and the diff planner
    inside `sync_directory`
  * `src/webserver.rs` — `get_page`, `construct_page_response`, `parse_etags`
    and the `PercentDecoder`

Byte strings are `List Nat` (each element a byte value), paths are `String`,
and the external BonsaiDB content store is modelled as an association list
from paths to stored files, following the Content Store contract of the
specification (get/list/create/append/truncate/delete/metadata keyed by
path).  The blake3 hash function (an external library) is a parameter
`hash : List Nat → List Nat` of every definition that hashes.
-/

namespace Dossier

/-- Digest: the 32-byte blake3 content hash, as a byte list. -/
abbrev Digest := List Nat

/-- Error enumeration of `src/api.rs` (`pub enum ApiError`). -/
inductive ApiError where
  | ProjectNotFound : ApiError
  | InvalidName : ApiError
  | InvalidPath : ApiError
  | AlreadyExists : ApiError
  | Deleted : ApiError
deriving DecidableEq, Repr

/-- A stored file in the content store: its byte content and its optional
recorded metadata (`schema.rs`: `Metadata { blake3: [u8; 32] }`). -/
structure StoredFile where
  content : List Nat
  metadata : Option Digest
deriving DecidableEq, Repr

/-- The content store, modelled from the spec's Content Store contract as a
path-keyed association list of stored files. -/
abbrev Store := List (String × StoredFile)

/-- Association-list lookup (the store's `load`, and `HashMap` indexing). -/
def alLookup {α : Type} (k : String) : List (String × α) → Option α
  | [] => none
  | e :: rest => if e.1 = k then some e.2 else alLookup k rest

/-- Remove every entry with the given key (the store's `delete`, and
`HashMap::remove`). -/
def eraseKey {α : Type} (k : String) (l : List (String × α)) : List (String × α) :=
  l.filter (fun e => decide (e.1 ≠ k))

/-- Replace the entry at a key (how a mutated file handle is written back). -/
def storeInsert (k : String) (f : StoredFile) (s : Store) : Store :=
  (k, f) :: eraseKey k s

/-- Shallow embedding of `api::write_file_data` (`src/api.rs`).

The Rust function loads the file at `path`; on the first chunk
(`start = true`) it truncates an existing file to length zero
(`file.truncate(0, Truncate::RemovingStart)`) or creates a fresh one, and a
non-first chunk against a missing file fails with `ApiError::Deleted`.  It
then appends `data`; if `finished` it re-reads the whole content, hashes it
with blake3, records the digest in the file's metadata and returns it,
otherwise it returns `none`. -/
def write_file_data (hash : List Nat → Digest) (path : String) (data : List Nat)
    (start finished : Bool) (s : Store) : Except ApiError (Store × Option Digest) :=
  let fileOpt : Option StoredFile :=
    match alLookup path s, start with
    | some f, true => some { f with content := [] }
    | some f, false => some f
    | none, true => some { content := [], metadata := none }
    | none, false => none
  match fileOpt with
  | none => Except.error ApiError.Deleted
  | some f =>
    let appended : StoredFile := { f with content := f.content ++ data }
    if finished then
      let h := hash appended.content
      Except.ok (storeInsert path { appended with metadata := some h } s, some h)
    else
      Except.ok (storeInsert path appended s, none)

/-- String prefix test on the underlying character lists (used to model the
store's recursive listing under a path prefix). -/
def strIsPrefix (base p : String) : Bool :=
  base.data.isPrefixOf p.data

/-- Shallow embedding of `api::list_files` (`src/api.rs`).

`DossierFiles::list_recursive_async(base_path)` is modelled from the spec's
Content Store contract (`list_recursive(pathPrefix) -> [FileRecord]`: every
file under the prefix); the function then keeps exactly the files carrying
recorded metadata, pairing each path with its recorded blake3 digest. -/
def list_files (base : String) (s : Store) : List (String × Digest) :=
  (s.filter (fun e => strIsPrefix base e.1)).filterMap
    (fun e => e.2.metadata.map (fun d => (e.1, d)))

/-- The record produced by the local tree scanner (`cli.rs`: `FileHash`). -/
structure FileHash where
  path : String
  remote_path : String
  blake3 : Digest
deriving DecidableEq, Repr

/-- The planner's operations (`cli.rs`: `enum SyncOperation`). -/
inductive SyncOperation where
  | Create : FileHash → SyncOperation
  | Replace : FileHash → SyncOperation
  | Delete : String → SyncOperation
deriving DecidableEq, Repr

/-- The remote-index key a scanner record is compared under:
`format!("/{project}{}", file_hash.remote_path)` in `sync_directory`. -/
def keyOf (project : String) (f : FileHash) : String :=
  "/" ++ project ++ f.remote_path

/-- The store path an emitted operation concerns. -/
def opPath (project : String) : SyncOperation → String
  | SyncOperation.Create f => keyOf project f
  | SyncOperation.Replace f => keyOf project f
  | SyncOperation.Delete p => p

/-- One step of the diff planner's reconciliation loop in `sync_directory`
(`src/cli.rs`): look the record's key up in the remaining remote index;
if present, remove it and emit `Replace` exactly when the digests differ;
if absent, emit `Create`. -/
def planStep (project : String) (st : List (String × Digest) × List SyncOperation)
    (f : FileHash) : List (String × Digest) × List SyncOperation :=
  match alLookup (keyOf project f) st.1 with
  | some existing_hash =>
    (eraseKey (keyOf project f) st.1,
      if existing_hash ≠ f.blake3 then st.2 ++ [SyncOperation.Replace f] else st.2)
  | none => (st.1, st.2 ++ [SyncOperation.Create f])

/-- The reconciliation loop over the whole scanner stream. -/
def planFold (project : String) (st : List (String × Digest) × List SyncOperation)
    (records : List FileHash) : List (String × Digest) × List SyncOperation :=
  records.foldl (planStep project) st

/-- The full operation sequence emitted by `sync_directory`'s planner: the
per-record operations, followed by one `Delete` for every path remaining in
the depleted remote index. -/
def syncPlan (project : String) (remote : List (String × Digest))
    (records : List FileHash) : List SyncOperation :=
  let st := planFold project (remote, []) records
  st.2 ++ st.1.map (fun e => SyncOperation.Delete e.1)

/-- `total_operations` counted by `sync_directory`: one per operation sent. -/
def totalOperations (project : String) (remote : List (String × Digest))
    (records : List FileHash) : Nat :=
  (syncPlan project remote records).length

/-- The operations among `ops` that concern the store path `p`. -/
def opsFor (project p : String) (ops : List SyncOperation) : List SyncOperation :=
  ops.filter (fun op => decide (opPath project op = p))

/-- A sequence of unfinished `write_file_data` calls against one path: each
element gives one chunk's bytes and `start` flag, and every call carries
`finished = false` (an upload that never wrote a final chunk). -/
def unfinishedWrites (hash : List Nat → Digest) (path : String) :
    List (List Nat × Bool) → Store → Except ApiError Store
  | [], s => Except.ok s
  | w :: rest, s =>
    match write_file_data hash path w.1 w.2 false s with
    | Except.error e => Except.error e
    | Except.ok (s', _) => unfinishedWrites hash path rest s'

/-- The uploader's scratch buffer size in `upload_file` (`vec![0; 1_048_576]`). -/
def CHUNK : Nat := 1048576

/-- The sequence of `write_file_data` calls `(data, start, finished)` that
`upload_file`'s inner read loop issues for a file whose bytes are `content`:
full `CHUNK`-sized buffers are written unfinished, and the final write (the
remaining bytes, possibly empty) carries `finished = true`.  The first write
overall carries `start = first`. -/
def chunkWrites (content : List Nat) (first : Bool) : List (List Nat × Bool × Bool) :=
  if _h : content.length < CHUNK then [(content, first, true)]
  else (content.take CHUNK, first, false) :: chunkWrites (content.drop CHUNK) false
termination_by content.length
decreasing_by
  simp only [List.length_drop]
  have hc : 0 < CHUNK := by decide
  omega

/-- Errors observable by `upload_file` (`anyhow::Result` in `cli.rs`). -/
inductive UploadError where
  | api : ApiError → UploadError
  | ioFailure : String → UploadError
  | unwrapNone : UploadError
deriving DecidableEq, Repr

/-- The database interface `upload_file` writes through (`cli.rs`'s
`write_file_data` wrapper dispatching over `AnyDatabase`): a chunk write
takes a path, the bytes, the start and finished flags, and either fails or
returns the new database state and the optional final digest. -/
structure Database (σ : Type) where
  write : String → List Nat → Bool → Bool → σ → Except UploadError (σ × Option Digest)

/-- Issue a list of chunk writes in order, keeping the last returned digest
(`file_hash` is overwritten by every write in the Rust loop); the first
failing write aborts the whole sequence with its error. -/
def runWrites {σ : Type} (db : Database σ) (path : String) :
    List (List Nat × Bool × Bool) → σ → Option Digest → Except UploadError (σ × Option Digest)
  | [], s, last => Except.ok (s, last)
  | w :: rest, s, _ =>
    match db.write path w.1 w.2.1 w.2.2 s with
    | Except.error e => Except.error e
    | Except.ok (s', h) => runWrites db path rest s' h

/-- One full upload attempt of `upload_file`: issue the chunk writes for
`content` (the first with `start = true`); if the final digest is still
`none` afterwards, issue one extra empty finished write (the
`if file_hash.is_none()` fallback in `cli.rs`). -/
def uploadAttempt {σ : Type} (db : Database σ) (path : String) (content : List Nat)
    (s : σ) : Except UploadError (σ × Option Digest) :=
  match runWrites db path (chunkWrites content true) s none with
  | Except.error e => Except.error e
  | Except.ok (s1, some h) => Except.ok (s1, some h)
  | Except.ok (s1, none) => db.write path [] false true s1

/-- Shallow embedding of `upload_file`'s verify-and-retry loop (`src/cli.rs`).

Each element of `attempts` is one iteration's local read of the source file
(`fs::File::open` + reads), which can fail.  `expected` is the caller's
`verify_hash`: `some` models `VerificationHash::Static` (the sync path) and
`none` models `VerificationHash::Computing`, in which case the verification
target is the hash of the bytes just written.  A verification mismatch
restarts the whole transfer with the next read; `Except.ok none` means the
attempt list was exhausted with the loop still retrying (the Rust loop is
unbounded).  `UploadError.unwrapNone` models the `file_hash.unwrap()` panic
were the final write to return no digest. -/
def upload_file {σ : Type} (db : Database σ) (hash : List Nat → Digest) (path : String)
    (expected : Option Digest) :
    List (Except UploadError (List Nat)) → σ → Except UploadError (Option σ)
  | [], _ => Except.ok none
  | read :: rest, s =>
    match read with
    | Except.error e => Except.error e
    | Except.ok content =>
      match uploadAttempt db path content s with
      | Except.error e => Except.error e
      | Except.ok (s', some serverHash) =>
        if serverHash = expected.getD (hash content) then Except.ok (some s')
        else upload_file db hash path expected rest s'
      | Except.ok (_, none) => Except.error UploadError.unwrapNone

/-- The concrete database of the local path (`AnyDatabase::Local`):
`api::write_file_data` against the content store. -/
def storeDatabase (hash : List Nat → Digest) : Database Store :=
  ⟨fun path data start finished s =>
    match write_file_data hash path data start finished s with
    | Except.error e => Except.error (UploadError.api e)
    | Except.ok r => Except.ok r⟩

/-- Hexadecimal digit value of an ASCII character (both cases), as accepted
by `u8::from_str_radix(_, 16)`. -/
def hexVal (c : Char) : Option Nat :=
  if 48 ≤ c.toNat ∧ c.toNat ≤ 57 then some (c.toNat - 48)
  else if 97 ≤ c.toNat ∧ c.toNat ≤ 102 then some (c.toNat - 97 + 10)
  else if 65 ≤ c.toNat ∧ c.toNat ≤ 70 then some (c.toNat - 65 + 10)
  else none

/-- Result of `u8::from_str_radix(s, 16)` on the two-character ASCII string
`c1 c2`: two hex digits, or a leading `+` sign (which the Rust integer
parser accepts) followed by one hex digit. -/
def escVal (c1 c2 : Char) : Option Nat :=
  match hexVal c1, hexVal c2 with
  | some v1, some v2 => some (v1 * 16 + v2)
  | _, _ =>
    if c1 = '+' then
      match hexVal c2 with
      | some v2 => some v2
      | none => none
    else none

/-- Whether the byte pair is valid UTF-8, deciding if
`std::str::from_utf8(&hex).unwrap()` in the decoder succeeds or panics. -/
def validUtf8Pair (b1 b2 : Nat) : Bool :=
  (b1 < 128 && b2 < 128) || (194 ≤ b1 && b1 ≤ 223 && 128 ≤ b2 && b2 ≤ 191)

/-- Outcome of collecting the `PercentDecoder` iterator: the decoded
characters, an `anyhow` error carrying the source's message, or a panic of
the `from_utf8(..).unwrap()` on a non-UTF-8 byte pair. -/
inductive PDec where
  | ok : List Char → PDec
  | err : String → PDec
  | panicked : PDec
deriving DecidableEq, Repr

/-- Prepend a decoded character to the iterator's remaining collection. -/
def pdCons (c : Char) : PDec → PDec
  | PDec.ok out => PDec.ok (c :: out)
  | other => other

/-- Map the successfully decoded output of the iterator. -/
def pdMapOk (g : List Char → List Char) : PDec → PDec
  | PDec.ok out => PDec.ok (g out)
  | other => other

/-- Shallow embedding of `PercentDecoder` (`src/webserver.rs`), collected as
by `decode_escaped_path_components`.

A `%` consumes the next two characters: a missing character or one above
`u8` range gives the error `invalid percent escape sequence`; for two bytes
the pair is interpreted through `str::from_utf8` (panicking on invalid
UTF-8) and `u8::from_str_radix(_, 16)`, whose failure message is
`invalid digit found in string`; a pair decoding to `/` is rejected with
`/ is invalid in a path segment`.  A `+` decodes to a space; anything else
passes through unchanged. -/
def pdecode : List Char → PDec
  | [] => PDec.ok []
  | '%' :: c1 :: c2 :: rest =>
    if 255 < c1.toNat ∨ 255 < c2.toNat then PDec.err "invalid percent escape sequence"
    else if c1.toNat < 128 ∧ c2.toNat < 128 then
      match escVal c1 c2 with
      | some 47 => PDec.err "/ is invalid in a path segment"
      | some v => pdCons (Char.ofNat v) (pdecode rest)
      | none => PDec.err "invalid digit found in string"
    else if validUtf8Pair c1.toNat c2.toNat then PDec.err "invalid digit found in string"
    else PDec.panicked
  | '%' :: _ => PDec.err "invalid percent escape sequence"
  | '+' :: rest => pdCons ' ' (pdecode rest)
  | c :: rest => pdCons c (pdecode rest)

/-- `decode_escaped_path_components` (`src/webserver.rs`). -/
def decode_escaped_path_components (path : String) : PDec :=
  pdecode path.data

/-- Split a character list on a separator character, as Rust's
`str::split(char)` does (empty fields are kept). -/
def splitOnChar (sep : Char) : List Char → List (List Char)
  | [] => [[]]
  | c :: rest =>
    if c = sep then [] :: splitOnChar sep rest
    else
      match splitOnChar sep rest with
      | h :: t => (c :: h) :: t
      | [] => [[c]]

/-- The sextet stream of base64 encoding: 3 input bytes become 4 sextets,
with 1 or 2 trailing bytes producing 2 or 3 canonically-padded sextets. -/
def sextetsOf : List Nat → List Nat
  | [] => []
  | [b1] => [b1 / 4, b1 % 4 * 16]
  | [b1, b2] => [b1 / 4, b1 % 4 * 16 + b2 / 16, b2 % 16 * 4]
  | b1 :: b2 :: b3 :: rest =>
    b1 / 4 :: (b1 % 4 * 16 + b2 / 16) :: (b2 % 16 * 4 + b3 / 64) :: b3 % 64 ::
      sextetsOf rest

/-- The URL-safe base64 alphabet (`base64::URL_SAFE_NO_PAD`). -/
def b64UrlChar (n : Nat) : Char :=
  ("ABCDEFGHIJKLMNOPQRSTUVWXYZabcdefghijklmnopqrstuvwxyz0123456789-_".data).getD n 'A'

/-- `base64::encode_config(bytes, base64::URL_SAFE_NO_PAD)` as used for the
`ETag` header value. -/
def base64_encode_url_nopad (bytes : List Nat) : String :=
  String.mk ((sextetsOf bytes).map b64UrlChar)

/-- Value of a character in the standard base64 alphabet (`+` and `/` for
62 and 63), the alphabet `base64::decode` uses. -/
def b64StdVal (c : Char) : Option Nat :=
  if 'A' ≤ c ∧ c ≤ 'Z' then some (c.toNat - 65)
  else if 'a' ≤ c ∧ c ≤ 'z' then some (c.toNat - 97 + 26)
  else if '0' ≤ c ∧ c ≤ '9' then some (c.toNat - 48 + 52)
  else if c = '+' then some 62
  else if c = '/' then some 63
  else none

/-- Reassemble bytes from base64 sextets; a remainder of one sextet or
non-zero trailing bits is rejected, as `base64` v0.13's decoder does. -/
def bytesOfSextets : List Nat → Option (List Nat)
  | [] => some []
  | [_] => none
  | [a, b] => if b % 16 = 0 then some [a * 4 + b / 16] else none
  | [a, b, c] => if c % 4 = 0 then some [a * 4 + b / 16, b % 16 * 16 + c / 4] else none
  | a :: b :: c :: d :: rest =>
    (bytesOfSextets rest).map
      (fun t => (a * 4 + b / 16) :: (b % 16 * 16 + c / 4) :: (c % 4 * 64 + d) :: t)

/-- Drop one trailing `=` padding character if present. -/
def dropOnePad (cs : List Char) : List Char :=
  if cs.getLast? = some '=' then cs.dropLast else cs

/-- `base64::decode` (v0.13, STANDARD configuration) on a character list:
up to two trailing `=` are tolerated, every other character must belong to
the standard alphabet, and the sextets are reassembled canonically. -/
def base64_decode_std (cs : List Char) : Option (List Nat) :=
  match (dropOnePad (dropOnePad cs)).mapM b64StdVal with
  | none => none
  | some vals => bytesOfSextets vals

/-- Loop body of `parse_etags` over the comma-separated fields: each field
must contain a quoted part (otherwise the whole parse returns `none`), and
a quoted part is kept exactly when it decodes — with the standard base64
alphabet — to 32 bytes. -/
def parseEtagsFields : List (List Char) → List Digest → Option (List Digest)
  | [], acc => some acc
  | field :: rest, acc =>
    match (splitOnChar '"' field).get? 1 with
    | none => none
    | some tag =>
      match base64_decode_std tag with
      | some bytes =>
        if bytes.length = 32 then parseEtagsFields rest (acc ++ [bytes])
        else parseEtagsFields rest acc
      | none => parseEtagsFields rest acc

/-- Shallow embedding of `parse_etags` (`src/webserver.rs`): the set of
digests (modelled as a list) listed in an `If-None-Match` header value. -/
def parse_etags (etags : String) : Option (List Digest) :=
  parseEtagsFields (splitOnChar ',' etags.data) []

/-- Shallow embedding of `construct_page_response` (`src/webserver.rs`):
given the request's `If-None-Match` header, the mime guess for the file
name, and the file's metadata, produce the `send_body` flag, the status
code, and the response headers.  The response is 304 exactly when the file
has a recorded digest and the parsed `If-None-Match` set contains it. -/
def construct_page_response (ifNoneMatch : Option String) (mime : Option String)
    (metadata : Option Digest) : Bool × Nat × List (String × String) :=
  let notModified : Bool :=
    match ifNoneMatch, metadata with
    | some etags, some d => ((parse_etags etags).getD []).contains d
    | _, _ => false
  let base := if notModified then (false, 304) else (true, 200)
  let headers :=
    (match mime with
     | some m => [("Content-Type", m)]
     | none => []) ++
    (match metadata with
     | some d => [("ETag", base64_encode_url_nopad d)]
     | none => [])
  (base.1, base.2, headers)

/-- HTTP methods reaching `get_page`. -/
inductive Method where
  | GET : Method
  | HEAD : Method
  | OPTIONS : Method
  | other : String → Method
deriving DecidableEq, Repr

/-- The parts of an inbound request that `get_page` consumes. -/
structure HttpRequest where
  method : Method
  path : String
  ifNoneMatch : Option String
deriving DecidableEq, Repr

/-- An HTTP response: status, headers, body bytes. -/
structure HttpResponse where
  status : Nat
  headers : List (String × String)
  body : List Nat
deriving DecidableEq, Repr

/-- Outcome of `get_page`: a response, an `anyhow` error (mapped to a 500
response by `get_page_with_error_handling`), or a panic. -/
inductive PageResult where
  | ok : HttpResponse → PageResult
  | error : String → PageResult
  | panicked : PageResult
deriving DecidableEq, Repr

/-- Bytes of an ASCII string (for literal response bodies). -/
def strBytes (s : String) : List Nat :=
  s.data.map Char.toNat

/-- Whether a string ends with the given character. -/
def strEndsWith (s : String) (c : Char) : Bool :=
  s.data.getLast? = some c

/-- The name of a stored file: the part of its path after the last `/`
(`file.name()` in bonsaidb-files). -/
def fileName (p : String) : String :=
  String.mk ((splitOnChar '/' p.data).getLastD [])

/-- The containing directory of a path, trailing slash included. -/
def dirOf (p : String) : String :=
  String.mk (p.data.take (p.data.length - (fileName p).data.length))

/-- Modelled from the spec: `DossierFiles::list_async(path)` of the Content
Store contract lists the files directly inside the directory `path`. -/
def list_async (dir : String) (s : Store) : Store :=
  let d := if strEndsWith dir '/' then dir else dir ++ "/"
  s.filter (fun e => dirOf e.1 = d)

/-- Modelled from the spec: the opaque response of the external websocket
upgrade for the `/_ws` path. -/
def websocketUpgradeResponse : HttpResponse :=
  { status := 101, headers := [], body := [] }

/-- The method dispatch at the end of `get_page`, for the resolved file
`e` (its full path and stored content). -/
def servePage (mimeOf : String → Option String) (req : HttpRequest)
    (e : String × StoredFile) : PageResult :=
  match req.method with
  | Method.GET =>
    let r := construct_page_response req.ifNoneMatch (mimeOf (fileName e.1)) e.2.metadata
    PageResult.ok
      { status := r.2.1, headers := r.2.2, body := if r.1 then e.2.content else [] }
  | Method.HEAD =>
    let r := construct_page_response req.ifNoneMatch (mimeOf (fileName e.1)) e.2.metadata
    PageResult.ok
      { status := r.2.1,
        headers := r.2.2 ++ [("Content-Length", toString e.2.content.length)], body := [] }
  | Method.OPTIONS =>
    PageResult.ok { status := 200, headers := [("Allow", "OPTIONS, GET, HEAD")], body := [] }
  | Method.other m => PageResult.error ("unsupported method: " ++ m)

/-- Shallow embedding of `get_page` (`src/webserver.rs`), parameterized by
the external `mime_guess` lookup.

The request path (other than `/_ws`) is percent-decoded, then resolved in
the store; an unresolved path falls back to a directory listing searched for
an `index.`-named file, redirecting (307) to the slash-suffixed directory
form when the original path lacked the trailing slash, and 404 when nothing
resolves.  GET and HEAD answer through `construct_page_response`; OPTIONS
answers `200` with `Allow: OPTIONS, GET, HEAD`; any other method is an
error (a 500 through the wrapper). -/
def get_page (mimeOf : String → Option String) (store : Store) (req : HttpRequest) :
    PageResult :=
  if req.path = "/_ws" then PageResult.ok websocketUpgradeResponse
  else
    match pdecode req.path.data with
    | PDec.panicked => PageResult.panicked
    | PDec.err msg => PageResult.error msg
    | PDec.ok decoded =>
      let path := String.mk decoded
      let found : Option (String × StoredFile) :=
        match alLookup path store with
        | some f => some (path, f)
        | none =>
          (list_async path store).find?
            (fun e => "index.".data.isPrefixOf (fileName e.1).data)
      match found, alLookup path store with
      | some e, none =>
        if ¬ strEndsWith path '/' then
          PageResult.ok { status := 307, headers := [("Location", path ++ "/")], body := [] }
        else servePage mimeOf req e
      | some e, some _ => servePage mimeOf req e
      | none, _ =>
        PageResult.ok { status := 404, headers := [], body := strBytes "Not found" }

/-- `get_page_with_error_handling` (`src/webserver.rs`): an error becomes a
500 response with a human-readable message. -/
def get_page_with_error_handling (mimeOf : String → Option String) (store : Store)
    (req : HttpRequest) : PageResult :=
  match get_page mimeOf store req with
  | PageResult.error msg =>
    PageResult.ok
      { status := 500, headers := [], body := strBytes ("an error occurred: " ++ msg) }
  | other => other

end Dossier

namespace Dossier

/-! Association-list lemmas. -/

@[simp]
theorem alLookup_nil {α : Type} (k : String) : alLookup k ([] : List (String × α)) = none := rfl

theorem alLookup_cons {α : Type} (k : String) (e : String × α) (l : List (String × α)) :
    alLookup k (e :: l) = if e.1 = k then some e.2 else alLookup k l := rfl

@[simp]
theorem alLookup_eraseKey_self {α : Type} (k : String) (l : List (String × α)) :
    alLookup k (eraseKey k l) = none := by
  induction l with
  | nil => rfl
  | cons e rest ih =>
    by_cases h : e.1 = k
    · simpa [eraseKey, h] using ih
    · simpa [eraseKey, alLookup_cons, h] using ih

theorem alLookup_eraseKey_ne {α : Type} {q k : String} (h : q ≠ k) (l : List (String × α)) :
    alLookup q (eraseKey k l) = alLookup q l := by
  induction l with
  | nil => rfl
  | cons e rest ih =>
    by_cases he : e.1 = k
    · have hq : e.1 ≠ q := by
        rw [he]
        exact fun hk => h hk.symm
      have hdrop : eraseKey k (e :: rest) = eraseKey k rest := by
        simp [eraseKey, List.filter_cons, he]
      rw [hdrop, ih, alLookup_cons]
      simp [hq]
    · have hkeep : eraseKey k (e :: rest) = e :: eraseKey k rest := by
        simp [eraseKey, List.filter_cons, he]
      rw [hkeep, alLookup_cons, alLookup_cons, ih]

@[simp]
theorem alLookup_storeInsert_self (k : String) (f : StoredFile) (s : Store) :
    alLookup k (storeInsert k f s) = some f := by
  simp [storeInsert, alLookup_cons]

theorem alLookup_storeInsert_ne {q k : String} (h : q ≠ k) (f : StoredFile) (s : Store) :
    alLookup q (storeInsert k f s) = alLookup q s := by
  have : k ≠ q := fun e => h e.symm
  simp [storeInsert, alLookup_cons, this]
  exact alLookup_eraseKey_ne h s

theorem mem_of_alLookup_some {α : Type} {k : String} {v : α} :
    ∀ {l : List (String × α)}, alLookup k l = some v → (k, v) ∈ l := by
  intro l
  induction l with
  | nil => intro h; cases h
  | cons e rest ih =>
    intro h
    rw [alLookup_cons] at h
    by_cases he : e.1 = k
    · simp [he] at h
      have heq : e = (k, v) := by
        cases e
        simp_all
      rw [heq]
      exact List.mem_cons_self _ _
    · simp [he] at h
      exact List.mem_cons_of_mem _ (ih h)

theorem alLookup_isSome_of_mem {α : Type} {k : String} {v : α} :
    ∀ {l : List (String × α)}, (k, v) ∈ l → alLookup k l ≠ none := by
  intro l
  induction l with
  | nil => intro h; cases h
  | cons e rest ih =>
    intro h
    rw [alLookup_cons]
    by_cases he : e.1 = k
    · simp [he]
    · simp [he]
      rcases List.mem_cons.1 h with h1 | h1
      · cases h1; simp at he
      · exact ih h1

theorem alLookup_some_of_mem_nodup {α : Type} {k : String} {v : α} :
    ∀ {l : List (String × α)}, (l.map Prod.fst).Nodup → (k, v) ∈ l →
      alLookup k l = some v := by
  intro l
  induction l with
  | nil => intro _ h; cases h
  | cons e rest ih =>
    intro hnd h
    rw [List.map_cons] at hnd
    have hnd1 := List.nodup_cons.1 hnd
    rw [alLookup_cons]
    rcases List.mem_cons.1 h with h1 | h1
    · cases h1
      simp
    · have hk : k ∈ rest.map Prod.fst := List.mem_map.2 ⟨(k, v), h1, rfl⟩
      have he : e.1 ≠ k := fun hek => hnd1.1 (hek ▸ hk)
      simp [he]
      exact ih hnd1.2 h1

theorem alLookup_none_of_not_mem_keys {α : Type} {k : String} {l : List (String × α)}
    (h : k ∉ l.map Prod.fst) : alLookup k l = none := by
  induction l with
  | nil => rfl
  | cons e rest ih =>
    rw [alLookup_cons]
    have he : e.1 ≠ k := by
      intro hek
      exact h (by simp [hek])
    simp [he]
    exact ih (fun hm => h (by simp [hm]))

theorem eraseKey_sublist {α : Type} (k : String) (l : List (String × α)) :
    (eraseKey k l).Sublist l :=
  List.filter_sublist l

theorem nodup_keys_eraseKey {α : Type} {k : String} {l : List (String × α)}
    (h : (l.map Prod.fst).Nodup) : ((eraseKey k l).map Prod.fst).Nodup :=
  ((eraseKey_sublist k l).map Prod.fst).nodup h

theorem nodup_keys_storeInsert {k : String} {f : StoredFile} {s : Store}
    (h : (s.map Prod.fst).Nodup) : ((storeInsert k f s).map Prod.fst).Nodup := by
  rw [storeInsert, List.map_cons]
  refine List.nodup_cons.2 ⟨?_, nodup_keys_eraseKey h⟩
  intro hk
  rcases List.mem_map.1 hk with ⟨e, he, hek⟩
  have := (List.mem_filter.1 he).2
  simp [hek] at this

/-! Case equations for `write_file_data`. -/

theorem write_file_data_some_true {path : String} {s : Store} {f : StoredFile}
    (hash : List Nat → Digest) (data : List Nat) (finished : Bool)
    (h : alLookup path s = some f) :
    write_file_data hash path data true finished s =
      (if finished then
        Except.ok (storeInsert path ⟨data, some (hash data)⟩ s, some (hash data))
      else Except.ok (storeInsert path ⟨data, f.metadata⟩ s, none)) := by
  cases finished <;> simp [write_file_data, h]

theorem write_file_data_some_false {path : String} {s : Store} {f : StoredFile}
    (hash : List Nat → Digest) (data : List Nat) (finished : Bool)
    (h : alLookup path s = some f) :
    write_file_data hash path data false finished s =
      (if finished then
        Except.ok (storeInsert path ⟨f.content ++ data, some (hash (f.content ++ data))⟩ s,
          some (hash (f.content ++ data)))
      else Except.ok (storeInsert path ⟨f.content ++ data, f.metadata⟩ s, none)) := by
  cases finished <;> simp [write_file_data, h]

theorem write_file_data_none_true {path : String} {s : Store}
    (hash : List Nat → Digest) (data : List Nat) (finished : Bool)
    (h : alLookup path s = none) :
    write_file_data hash path data true finished s =
      (if finished then
        Except.ok (storeInsert path ⟨data, some (hash data)⟩ s, some (hash data))
      else Except.ok (storeInsert path ⟨data, none⟩ s, none)) := by
  cases finished <;> simp [write_file_data, h]

theorem write_file_data_none_false {path : String} {s : Store}
    (hash : List Nat → Digest) (data : List Nat) (finished : Bool)
    (h : alLookup path s = none) :
    write_file_data hash path data false finished s = Except.error ApiError.Deleted := by
  simp [write_file_data, h]

/-- C4: a successful `write_file_data(path, bytes, start, finished)` returns
`some digest` if and only if `finished` is true; the returned digest is the
blake3 hash of the entire byte content stored at `path` after the append and
is recorded in the file's metadata on that final chunk, while an unfinished
call returns `none` and leaves the path's recorded digest metadata exactly
as it was before the call (in particular, a freshly created file carries
none). -/
theorem c4_write_file_data_digest (hash : List Nat → Digest) (path : String)
    (data : List Nat) (start finished : Bool) (s s' : Store) (r : Option Digest)
    (h : write_file_data hash path data start finished s = Except.ok (s', r)) :
    (r.isSome ↔ finished = true) ∧
    ∃ f', alLookup path s' = some f' ∧
      (finished = true → r = some (hash f'.content) ∧ f'.metadata = some (hash f'.content)) ∧
      (finished = false → r = none ∧
        f'.metadata = (match alLookup path s with
          | some f => f.metadata
          | none => none)) := by
  cases hl : alLookup path s with
  | some f =>
    cases start with
    | true =>
      rw [write_file_data_some_true hash data finished hl] at h
      cases finished <;> simp at h <;>
        rcases h with ⟨hs, hr⟩ <;> subst hs <;> subst hr <;>
        exact ⟨by simp, _, alLookup_storeInsert_self _ _ _, by simp [hl], by simp [hl]⟩
    | false =>
      rw [write_file_data_some_false hash data finished hl] at h
      cases finished <;> simp at h <;>
        rcases h with ⟨hs, hr⟩ <;> subst hs <;> subst hr <;>
        exact ⟨by simp, _, alLookup_storeInsert_self _ _ _, by simp [hl], by simp [hl]⟩
  | none =>
    cases start with
    | true =>
      rw [write_file_data_none_true hash data finished hl] at h
      cases finished <;> simp at h <;>
        rcases h with ⟨hs, hr⟩ <;> subst hs <;> subst hr <;>
        exact ⟨by simp, _, alLookup_storeInsert_self _ _ _, by simp [hl], by simp [hl]⟩
    | false =>
      rw [write_file_data_none_false hash data finished hl] at h
      cases h

theorem c4_write_file_data_digest_witness :
    (some ([1, 2] : Digest)).isSome ↔ true = true :=
  (c4_write_file_data_digest (fun l => l) "/p/a" [1, 2] true true []
    [("/p/a", ⟨[1, 2], some [1, 2]⟩)] (some [1, 2]) rfl).1

/-- C5: on a first chunk (`start = true`), `write_file_data` truncates an
existing file at `path` to empty before appending (the resulting content is
exactly the new bytes) and creates the file when it does not exist, while a
non-first chunk against a missing path fails with `ApiError::Deleted`. -/
theorem c5_write_file_data_start (hash : List Nat → Digest) (path : String)
    (data : List Nat) (finished : Bool) (s : Store) :
    (∀ f, alLookup path s = some f → ∃ s' r,
        write_file_data hash path data true finished s = Except.ok (s', r) ∧
        (alLookup path s').map StoredFile.content = some data) ∧
    (alLookup path s = none → ∃ s' r,
        write_file_data hash path data true finished s = Except.ok (s', r) ∧
        (alLookup path s').map StoredFile.content = some data) ∧
    (alLookup path s = none →
        write_file_data hash path data false finished s = Except.error ApiError.Deleted) := by
  refine ⟨?_, ?_, ?_⟩
  · intro f hl
    rw [write_file_data_some_true hash data finished hl]
    cases finished <;> exact ⟨_, _, rfl, by simp⟩
  · intro hl
    rw [write_file_data_none_true hash data finished hl]
    cases finished <;> exact ⟨_, _, rfl, by simp⟩
  · intro hl
    exact write_file_data_none_false hash data finished hl

theorem c5_write_file_data_start_witness :
    (∃ s' r, write_file_data (fun l => l) "/p" [1] true true [("/p", ⟨[9, 9], none⟩)] =
        Except.ok (s', r) ∧
      (alLookup "/p" s').map StoredFile.content = some [1]) ∧
    write_file_data (fun l => l) "/q" [1] false true [("/p", ⟨[9, 9], none⟩)] =
      Except.error ApiError.Deleted :=
  ⟨(c5_write_file_data_start (fun l => l) "/p" [1] true [("/p", ⟨[9, 9], none⟩)]).1
      ⟨[9, 9], none⟩ rfl,
    (c5_write_file_data_start (fun l => l) "/q" [1] true [("/p", ⟨[9, 9], none⟩)]).2.2 rfl⟩

/-! Lemmas about the percent decoder. -/

theorem pdecode_pct_cons (c1 c2 : Char) (rest : List Char) :
    pdecode ('%' :: c1 :: c2 :: rest) =
      (if 255 < c1.toNat ∨ 255 < c2.toNat then PDec.err "invalid percent escape sequence"
       else if c1.toNat < 128 ∧ c2.toNat < 128 then
         match escVal c1 c2 with
         | some 47 => PDec.err "/ is invalid in a path segment"
         | some v => pdCons (Char.ofNat v) (pdecode rest)
         | none => PDec.err "invalid digit found in string"
       else if validUtf8Pair c1.toNat c2.toNat then PDec.err "invalid digit found in string"
       else PDec.panicked) := by
  rw [pdecode]

theorem pdecode_pct_one (c1 : Char) :
    pdecode ['%', c1] = PDec.err "invalid percent escape sequence" := by
  rw [pdecode]
  intro a b r h
  cases h

theorem pdecode_pct_nil : pdecode ['%'] = PDec.err "invalid percent escape sequence" := by
  rw [pdecode]
  intro a b r h
  cases h

theorem pdecode_plus (rest : List Char) : pdecode ('+' :: rest) = pdCons ' ' (pdecode rest) := by
  rw [pdecode]

theorem pdecode_cons_other {c : Char} (rest : List Char) (h1 : c ≠ '%') (h2 : c ≠ '+') :
    pdecode (c :: rest) = pdCons c (pdecode rest) := by
  rw [pdecode]
  · intro a b r hc hr
    exact h1 hc
  · exact fun hc => h1 hc
  · exact fun hc => h2 hc

theorem pdCons_pdMapOk (c : Char) (g : List Char → List Char) (x : PDec) :
    pdCons c (pdMapOk g x) = pdMapOk (fun o => c :: g o) x := by
  cases x <;> rfl

theorem hexVal_lt {c : Char} {v : Nat} (h : hexVal c = some v) : c.toNat < 128 := by
  unfold hexVal at h
  split_ifs at h <;> omega

theorem escVal_ascii {c1 c2 : Char} {v : Nat} (h : escVal c1 c2 = some v) :
    c1.toNat < 128 ∧ c2.toNat < 128 := by
  unfold escVal at h
  cases hv1 : hexVal c1 with
  | some v1 =>
    cases hv2 : hexVal c2 with
    | some v2 => exact ⟨hexVal_lt hv1, hexVal_lt hv2⟩
    | none =>
      rw [hv1, hv2] at h
      by_cases hplus : c1 = '+' <;> simp [hplus] at h
  | none =>
    cases hv2 : hexVal c2 with
    | some v2 =>
      by_cases hplus : c1 = '+'
      · subst hplus
        exact ⟨by decide, hexVal_lt hv2⟩
      · rw [hv1, hv2] at h
        simp [hplus] at h
    | none =>
      rw [hv1, hv2] at h
      by_cases hplus : c1 = '+' <;> simp [hplus] at h

theorem pdecode_pct_err47 {c1 c2 : Char} (hv : escVal c1 c2 = some 47) (rest : List Char) :
    pdecode ('%' :: c1 :: c2 :: rest) = PDec.err "/ is invalid in a path segment" := by
  have ha := escVal_ascii hv
  rw [pdecode_pct_cons, if_neg (by omega), if_pos ha, hv]

theorem pdecode_pct_val {c1 c2 : Char} {v : Nat} (hv : escVal c1 c2 = some v) (h47 : v ≠ 47)
    (rest : List Char) :
    pdecode ('%' :: c1 :: c2 :: rest) = pdCons (Char.ofNat v) (pdecode rest) := by
  have ha := escVal_ascii hv
  rw [pdecode_pct_cons, if_neg (by omega), if_pos ha, hv]
  split
  · rename_i heq
    rw [Option.some.injEq] at heq
    exact absurd heq h47
  · rename_i v' heq
    rw [Option.some.injEq] at heq
    rw [heq]
  · rename_i heq
    simp at heq

theorem pdecode_pct_badpair {c1 c2 : Char} (h1 : c1.toNat < 128) (h2 : c2.toNat < 128)
    (hv : escVal c1 c2 = none) (rest : List Char) :
    pdecode ('%' :: c1 :: c2 :: rest) = PDec.err "invalid digit found in string" := by
  rw [pdecode_pct_cons, if_neg (by omega), if_pos ⟨h1, h2⟩, hv]

/-- Decoding a successfully decodable prefix commutes with appending: the
decoder is a left-to-right token scan. -/
theorem pdecode_append_aux :
    ∀ (n : Nat) (pre : List Char), pre.length ≤ n → ∀ (out l : List Char),
      pdecode pre = PDec.ok out →
      pdecode (pre ++ l) = pdMapOk (fun o => out ++ o) (pdecode l) := by
  intro n
  induction n with
  | zero =>
    intro pre hlen out l h
    have hpre : pre = [] := List.eq_nil_of_length_eq_zero (Nat.le_zero.1 hlen)
    subst hpre
    simp [pdecode] at h
    subst h
    cases hd : pdecode l <;> simp [pdMapOk, hd]
  | succ n ih =>
    intro pre hlen out l h
    cases pre with
    | nil =>
      simp [pdecode] at h
      subst h
      cases hd : pdecode l <;> simp [pdMapOk, hd]
    | cons c rest0 =>
      by_cases hc : c = '%'
      · subst hc
        cases rest0 with
        | nil => rw [pdecode_pct_nil] at h; cases h
        | cons c1 rest1 =>
          cases rest1 with
          | nil => rw [pdecode_pct_one] at h; cases h
          | cons c2 rest =>
            by_cases h255 : 255 < c1.toNat ∨ 255 < c2.toNat
            · rw [pdecode_pct_cons, if_pos h255] at h; cases h
            · by_cases hascii : c1.toNat < 128 ∧ c2.toNat < 128
              · cases hv : escVal c1 c2 with
                | none =>
                  rw [pdecode_pct_badpair hascii.1 hascii.2 hv] at h
                  cases h
                | some v =>
                  by_cases h47 : v = 47
                  · subst h47
                    rw [pdecode_pct_err47 hv] at h
                    cases h
                  · rw [pdecode_pct_val hv h47] at h
                    cases hrest : pdecode rest with
                    | ok out1 =>
                      rw [hrest] at h
                      simp [pdCons] at h
                      subst h
                      have hlen' : rest.length ≤ n := by
                        simp at hlen
                        omega
                      have hih := ih rest hlen' out1 l hrest
                      calc pdecode (('%' :: c1 :: c2 :: rest) ++ l)
                          = pdecode ('%' :: c1 :: c2 :: (rest ++ l)) := by simp
                        _ = pdCons (Char.ofNat v) (pdecode (rest ++ l)) :=
                            pdecode_pct_val hv h47 _
                        _ = pdCons (Char.ofNat v)
                              (pdMapOk (fun o => out1 ++ o) (pdecode l)) := by rw [hih]
                        _ = pdMapOk (fun o => (Char.ofNat v :: out1) ++ o) (pdecode l) := by
                            cases pdecode l <;> simp [pdCons, pdMapOk]
                    | err m =>
                      rw [hrest] at h
                      simp [pdCons] at h
                    | panicked =>
                      rw [hrest] at h
                      simp [pdCons] at h
              · rw [pdecode_pct_cons, if_neg h255, if_neg hascii] at h
                by_cases hu : validUtf8Pair c1.toNat c2.toNat
                · rw [if_pos hu] at h; cases h
                · rw [if_neg hu] at h; cases h
      · by_cases hp : c = '+'
        · subst hp
          rw [pdecode_plus] at h
          cases hrest : pdecode rest0 with
          | ok out1 =>
            rw [hrest] at h
            simp [pdCons] at h
            subst h
            have hlen' : rest0.length ≤ n := by
              simp at hlen
              omega
            have hih := ih rest0 hlen' out1 l hrest
            calc pdecode (('+' :: rest0) ++ l)
                = pdecode ('+' :: (rest0 ++ l)) := by simp
              _ = pdCons ' ' (pdecode (rest0 ++ l)) := pdecode_plus _
              _ = pdCons ' ' (pdMapOk (fun o => out1 ++ o) (pdecode l)) := by rw [hih]
              _ = pdMapOk (fun o => (' ' :: out1) ++ o) (pdecode l) := by
                  cases pdecode l <;> simp [pdCons, pdMapOk]
          | err m =>
            rw [hrest] at h
            simp [pdCons] at h
          | panicked =>
            rw [hrest] at h
            simp [pdCons] at h
        · rw [pdecode_cons_other rest0 hc hp] at h
          cases hrest : pdecode rest0 with
          | ok out1 =>
            rw [hrest] at h
            simp [pdCons] at h
            subst h
            have hlen' : rest0.length ≤ n := by
              simp at hlen
              omega
            have hih := ih rest0 hlen' out1 l hrest
            calc pdecode ((c :: rest0) ++ l)
                = pdecode (c :: (rest0 ++ l)) := by simp
              _ = pdCons c (pdecode (rest0 ++ l)) := pdecode_cons_other _ hc hp
              _ = pdCons c (pdMapOk (fun o => out1 ++ o) (pdecode l)) := by rw [hih]
              _ = pdMapOk (fun o => (c :: out1) ++ o) (pdecode l) := by
                  cases pdecode l <;> simp [pdCons, pdMapOk]
          | err m =>
            rw [hrest] at h
            simp [pdCons] at h
          | panicked =>
            rw [hrest] at h
            simp [pdCons] at h

theorem pdecode_append {pre out : List Char} (l : List Char)
    (h : pdecode pre = PDec.ok out) :
    pdecode (pre ++ l) = pdMapOk (fun o => out ++ o) (pdecode l) :=
  pdecode_append_aux pre.length pre le_rfl out l h

/-- C7 (counterexample): the percent decoder does not return an error for
the non-hex pair `+3`: `u8::from_str_radix` accepts a leading `+` sign, so
the path `%+3` decodes successfully to the control character `0x03`. -/
theorem c7_percent_decoder_counterexample :
    pdecode ("%+3".data) = PDec.ok [Char.ofNat 3] ∧
    ∀ msg, pdecode ("%+3".data) ≠ PDec.err msg := by
  refine ⟨by decide, ?_⟩
  intro msg h
  rw [show pdecode ("%+3".data) = PDec.ok [Char.ofNat 3] from by decide] at h
  cases h

/-- C7 (amended): wherever they occur after a successfully decoded prefix,
the percent decoder rejects a percent-escape pair that decodes to `/`,
rejects a `%` followed by fewer than two characters, and rejects a `%`
followed by an ASCII pair that the integer parser cannot read — which is
any non-hex pair except a `+` followed by a hex digit, accepted because
`u8::from_str_radix` allows a leading plus sign and then decoding continues
with that digit's value.  A `+` decodes to a space and every other
character passes through unchanged. -/
theorem c7_percent_decoder (pre out suf : List Char)
    (hpre : pdecode pre = PDec.ok out) :
    (∀ c1 c2, escVal c1 c2 = some 47 →
      pdecode (pre ++ '%' :: c1 :: c2 :: suf) =
        PDec.err "/ is invalid in a path segment") ∧
    (pdecode (pre ++ ['%']) = PDec.err "invalid percent escape sequence") ∧
    (∀ c1, pdecode (pre ++ ['%', c1]) = PDec.err "invalid percent escape sequence") ∧
    (∀ c1 c2, c1.toNat < 128 → c2.toNat < 128 → escVal c1 c2 = none →
      pdecode (pre ++ '%' :: c1 :: c2 :: suf) =
        PDec.err "invalid digit found in string") ∧
    (∀ c1 c2 v, escVal c1 c2 = some v → v ≠ 47 →
      pdecode (pre ++ '%' :: c1 :: c2 :: suf) =
        pdMapOk (fun o => out ++ Char.ofNat v :: o) (pdecode suf)) ∧
    (pdecode (pre ++ '+' :: suf) = pdMapOk (fun o => out ++ ' ' :: o) (pdecode suf)) ∧
    (∀ c, c ≠ '%' → c ≠ '+' →
      pdecode (pre ++ c :: suf) = pdMapOk (fun o => out ++ c :: o) (pdecode suf)) := by
  refine ⟨?_, ?_, ?_, ?_, ?_, ?_, ?_⟩
  · intro c1 c2 hv
    rw [pdecode_append _ hpre, pdecode_pct_err47 hv]
    rfl
  · rw [pdecode_append _ hpre, pdecode_pct_nil]
    rfl
  · intro c1
    rw [pdecode_append _ hpre, pdecode_pct_one]
    rfl
  · intro c1 c2 h1 h2 hv
    rw [pdecode_append _ hpre, pdecode_pct_badpair h1 h2 hv]
    rfl
  · intro c1 c2 v hv h47
    rw [pdecode_append _ hpre, pdecode_pct_val hv h47]
    cases pdecode suf <;> simp [pdCons, pdMapOk]
  · rw [pdecode_append _ hpre, pdecode_plus]
    cases pdecode suf <;> simp [pdCons, pdMapOk]
  · intro c h1 h2
    rw [pdecode_append _ hpre, pdecode_cons_other _ h1 h2]
    cases pdecode suf <;> simp [pdCons, pdMapOk]

theorem c7_percent_decoder_witness :
    pdecode (['/', 'a'] ++ '%' :: '2' :: 'F' :: ['b']) =
      PDec.err "/ is invalid in a path segment" :=
  (c7_percent_decoder ['/', 'a'] ['/', 'a'] ['b'] (by decide)).1 '2' 'F' (by decide)

/-- C3 (code bug): `construct_page_response` encodes the `ETag` header with
the URL-safe no-pad base64 alphabet but `parse_etags` decodes
`If-None-Match` with `base64::decode`, i.e. the standard alphabet.  For the
stored digest of thirty-two `0xFF` bytes — whose ETag encoding is 42 `_`
characters followed by `8` — a GET request whose `If-None-Match` quotes
exactly that ETag still receives 200 with the full body (the claim and the
spec require 304 with an empty body), because `_` is not a standard-alphabet
character and the advertised digest therefore never parses back. -/
theorem c3_conditional_get_bug :
    base64_encode_url_nopad (List.replicate 32 255) =
      String.mk (List.replicate 42 '_' ++ ['8']) ∧
    parse_etags ("\"" ++ base64_encode_url_nopad (List.replicate 32 255) ++ "\"") =
      some [] ∧
    get_page (fun _ => none) [("/f", ⟨[9], some (List.replicate 32 255)⟩)]
        { method := Method.GET, path := "/f",
          ifNoneMatch :=
            some ("\"" ++ base64_encode_url_nopad (List.replicate 32 255) ++ "\"") } =
      PageResult.ok
        { status := 200,
          headers := [("ETag", base64_encode_url_nopad (List.replicate 32 255))],
          body := [9] } ∧
    get_page (fun _ => none) [("/f", ⟨[9], some (List.replicate 32 255)⟩)]
        { method := Method.GET, path := "/f",
          ifNoneMatch :=
            some ("\"" ++ base64_encode_url_nopad (List.replicate 32 255) ++ "\"") } ≠
      PageResult.ok
        { status := 304,
          headers := [("ETag", base64_encode_url_nopad (List.replicate 32 255))],
          body := [] } := by
  exact ⟨by decide, by decide, by decide, by decide⟩

/-- C6 (counterexample): an OPTIONS request for a path that resolves to no
stored file does not receive `200` with the `Allow` header — `get_page`
resolves the path before dispatching on the method, so it answers 404. -/
theorem c6_options_counterexample :
    get_page (fun _ => none) []
        { method := Method.OPTIONS, path := "/x", ifNoneMatch := none } =
      PageResult.ok { status := 404, headers := [], body := strBytes "Not found" } ∧
    get_page (fun _ => none) []
        { method := Method.OPTIONS, path := "/x", ifNoneMatch := none } ≠
      PageResult.ok
        { status := 200, headers := [("Allow", "OPTIONS, GET, HEAD")], body := [] } := by
  exact ⟨by decide, by decide⟩

/-- C6 (amended): for every request path other than `/_ws` whose
percent-decoding succeeds and which is present in the store, an OPTIONS
request receives a 200 response whose `Allow` header lists exactly
`OPTIONS, GET, HEAD`; an OPTIONS request for a path that resolves to no
stored file receives 404 instead. -/
theorem c6_options_allow (mimeOf : String → Option String) (store : Store)
    (req : HttpRequest) (decoded : List Char) (f : StoredFile)
    (hws : req.path ≠ "/_ws")
    (hdec : pdecode req.path.data = PDec.ok decoded)
    (hfound : alLookup (String.mk decoded) store = some f)
    (hm : req.method = Method.OPTIONS) :
    get_page mimeOf store req =
      PageResult.ok
        { status := 200, headers := [("Allow", "OPTIONS, GET, HEAD")], body := [] } := by
  unfold get_page
  rw [if_neg hws, hdec]
  simp only [hfound, servePage, hm]

theorem c6_options_allow_witness :
    get_page (fun _ => none) [("/x", ⟨[1], none⟩)]
        { method := Method.OPTIONS, path := "/x", ifNoneMatch := none } =
      PageResult.ok
        { status := 200, headers := [("Allow", "OPTIONS, GET, HEAD")], body := [] } :=
  c6_options_allow (fun _ => none) [("/x", ⟨[1], none⟩)]
    { method := Method.OPTIONS, path := "/x", ifNoneMatch := none }
    ("/x".data) ⟨[1], none⟩ (by decide) (by decide) (by decide) rfl

/-! Diff-planner lemmas. -/

theorem planFold_nil (project : String) (st : List (String × Digest) × List SyncOperation) :
    planFold project st [] = st := rfl

theorem planFold_cons (project : String) (st : List (String × Digest) × List SyncOperation)
    (r : FileHash) (rs : List FileHash) :
    planFold project st (r :: rs) = planFold project (planStep project st r) rs := rfl

theorem planStep_of_some {project : String} {rem : List (String × Digest)}
    {f : FileHash} {hsh : Digest} (ops : List SyncOperation)
    (h : alLookup (keyOf project f) rem = some hsh) :
    planStep project (rem, ops) f =
      (eraseKey (keyOf project f) rem,
        if hsh ≠ f.blake3 then ops ++ [SyncOperation.Replace f] else ops) := by
  unfold planStep
  rw [h]

theorem planStep_of_none {project : String} {rem : List (String × Digest)}
    {f : FileHash} (ops : List SyncOperation)
    (h : alLookup (keyOf project f) rem = none) :
    planStep project (rem, ops) f = (rem, ops ++ [SyncOperation.Create f]) := by
  unfold planStep
  rw [h]

theorem planFold_ops_shift (project : String) (records : List FileHash) :
    ∀ (rem : List (String × Digest)) (ops : List SyncOperation),
      planFold project (rem, ops) records =
        ((planFold project (rem, []) records).1,
          ops ++ (planFold project (rem, []) records).2) := by
  induction records with
  | nil =>
    intro rem ops
    simp [planFold_nil]
  | cons r rs ih =>
    intro rem ops
    rw [planFold_cons, planFold_cons]
    cases hl : alLookup (keyOf project r) rem with
    | some hsh =>
      rw [planStep_of_some ops hl, planStep_of_some [] hl]
      by_cases hb : hsh ≠ r.blake3
      · rw [if_pos hb, if_pos hb, ih _ (ops ++ [SyncOperation.Replace r]),
          ih _ ([] ++ [SyncOperation.Replace r])]
        simp
      · rw [if_neg hb, if_neg hb, ih _ ops]
    | none =>
      rw [planStep_of_none ops hl, planStep_of_none [] hl,
        ih _ (ops ++ [SyncOperation.Create r]), ih _ ([] ++ [SyncOperation.Create r])]
      simp

theorem planFold_fst_ops_irrelevant (project : String) (records : List FileHash)
    (rem : List (String × Digest)) (ops : List SyncOperation) :
    (planFold project (rem, ops) records).1 = (planFold project (rem, []) records).1 := by
  rw [planFold_ops_shift]

theorem planFold_fst_sublist (project : String) (records : List FileHash) :
    ∀ rem : List (String × Digest),
      (planFold project (rem, []) records).1.Sublist rem := by
  induction records with
  | nil =>
    intro rem
    exact List.Sublist.refl rem
  | cons r rs ih =>
    intro rem
    rw [planFold_cons]
    cases hl : alLookup (keyOf project r) rem with
    | some hsh =>
      rw [planStep_of_some [] hl, planFold_fst_ops_irrelevant]
      exact (ih _).trans (eraseKey_sublist _ rem)
    | none =>
      rw [planStep_of_none [] hl, planFold_fst_ops_irrelevant]
      exact ih rem

theorem planFold_fst_lookup_of_absent (project : String) (records : List FileHash) :
    ∀ (rem : List (String × Digest)) (p : String),
      (∀ r ∈ records, keyOf project r ≠ p) →
      alLookup p (planFold project (rem, []) records).1 = alLookup p rem := by
  induction records with
  | nil =>
    intro rem p _
    rfl
  | cons r rs ih =>
    intro rem p h
    have hr : keyOf project r ≠ p := h r (List.mem_cons_self r rs)
    have hrs : ∀ r' ∈ rs, keyOf project r' ≠ p :=
      fun r' hr' => h r' (List.mem_cons_of_mem r hr')
    rw [planFold_cons]
    cases hl : alLookup (keyOf project r) rem with
    | some hsh =>
      rw [planStep_of_some [] hl, planFold_fst_ops_irrelevant, ih _ p hrs]
      exact alLookup_eraseKey_ne (fun hpk => hr hpk.symm) rem
    | none =>
      rw [planStep_of_none [] hl, planFold_fst_ops_irrelevant]
      exact ih rem p hrs

theorem planFold_fst_lookup_of_mem (project : String) (records : List FileHash) :
    ∀ (rem : List (String × Digest)) (r : FileHash), r ∈ records →
      (records.map (keyOf project)).Nodup →
      alLookup (keyOf project r) (planFold project (rem, []) records).1 = none := by
  induction records with
  | nil =>
    intro rem r hr
    cases hr
  | cons r0 rs ih =>
    intro rem r hr hnd
    rw [List.map_cons] at hnd
    have hnd1 := List.nodup_cons.1 hnd
    rw [planFold_cons]
    rcases List.mem_cons.1 hr with h1 | h1
    · subst h1
      have hrs : ∀ r' ∈ rs, keyOf project r' ≠ keyOf project r := by
        intro r' hr' hk
        exact hnd1.1 (hk ▸ List.mem_map.2 ⟨r', hr', rfl⟩)
      cases hl : alLookup (keyOf project r) rem with
      | some hsh =>
        rw [planStep_of_some [] hl, planFold_fst_ops_irrelevant,
          planFold_fst_lookup_of_absent project rs _ _ hrs]
        exact alLookup_eraseKey_self _ _
      | none =>
        rw [planStep_of_none [] hl, planFold_fst_ops_irrelevant,
          planFold_fst_lookup_of_absent project rs _ _ hrs]
        exact hl
    · cases hl : alLookup (keyOf project r0) rem with
      | some hsh =>
        rw [planStep_of_some [] hl, planFold_fst_ops_irrelevant]
        exact ih _ r h1 hnd1.2
      | none =>
        rw [planStep_of_none [] hl, planFold_fst_ops_irrelevant]
        exact ih _ r h1 hnd1.2

theorem opsFor_append (project p : String) (a b : List SyncOperation) :
    opsFor project p (a ++ b) = opsFor project p a ++ opsFor project p b := by
  simp [opsFor]

theorem planFold_ops_filter (project : String) (records : List FileHash) :
    ∀ (rem : List (String × Digest)) (p : String),
      (records.map (keyOf project)).Nodup →
      opsFor project p (planFold project (rem, []) records).2 =
        (match records.find? (fun r => decide (keyOf project r = p)),
            alLookup p rem with
        | some r, some hsh =>
          if hsh ≠ r.blake3 then [SyncOperation.Replace r] else []
        | some r, none => [SyncOperation.Create r]
        | none, _ => []) := by
  induction records with
  | nil =>
    intro rem p _
    simp [planFold_nil, opsFor]
  | cons r0 rs ih =>
    intro rem p hnd
    rw [List.map_cons] at hnd
    have hnd1 := List.nodup_cons.1 hnd
    rw [planFold_cons]
    by_cases hkey : keyOf project r0 = p
    · have hfind : (r0 :: rs).find? (fun r => decide (keyOf project r = p)) = some r0 := by
        simp [List.find?_cons, hkey]
      have hrs : ∀ r' ∈ rs, ¬(keyOf project r' = p) := by
        intro r' hr' hk
        exact hnd1.1 (by rw [hkey, ← hk]; exact List.mem_map.2 ⟨r', hr', rfl⟩)
      have hfindrs : rs.find? (fun r => decide (keyOf project r = p)) = none :=
        List.find?_eq_none.2 (fun r' hr' => by simp [hrs r' hr'])
      rw [hfind]
      cases hl : alLookup (keyOf project r0) rem with
      | some hsh =>
        rw [planStep_of_some [] hl, planFold_ops_shift, opsFor_append,
          ih _ p hnd1.2, hfindrs]
        rw [hkey] at hl
        rw [hl]
        by_cases hb : hsh ≠ r0.blake3 <;>
          simp [hb, opsFor, opPath, hkey]
      | none =>
        rw [planStep_of_none [] hl, planFold_ops_shift, opsFor_append,
          ih _ p hnd1.2, hfindrs]
        rw [hkey] at hl
        rw [hl]
        simp [opsFor, opPath, hkey]
    · have hfind : (r0 :: rs).find? (fun r => decide (keyOf project r = p)) =
          rs.find? (fun r => decide (keyOf project r = p)) := by
        simp [List.find?_cons, hkey]
      rw [hfind]
      cases hl : alLookup (keyOf project r0) rem with
      | some hsh =>
        rw [planStep_of_some [] hl, planFold_ops_shift, opsFor_append, ih _ p hnd1.2]
        rw [alLookup_eraseKey_ne (fun hpk => hkey hpk.symm) rem]
        by_cases hb : hsh ≠ r0.blake3 <;>
          simp [hb, opsFor, opPath, hkey]
      | none =>
        rw [planStep_of_none [] hl, planFold_ops_shift, opsFor_append, ih _ p hnd1.2]
        simp [opsFor, opPath, hkey]

theorem deletes_filter (project p : String) :
    ∀ l : List (String × Digest), (l.map Prod.fst).Nodup →
      opsFor project p (l.map (fun e => SyncOperation.Delete e.1)) =
        (match alLookup p l with
        | some _ => [SyncOperation.Delete p]
        | none => []) := by
  intro l
  induction l with
  | nil =>
    intro _
    simp [opsFor]
  | cons e rest ih =>
    intro hnd
    rw [List.map_cons] at hnd
    have hnd1 := List.nodup_cons.1 hnd
    rw [alLookup_cons]
    by_cases he : e.1 = p
    · have hrest : alLookup p rest = none := by
        refine alLookup_none_of_not_mem_keys ?_
        intro hm
        exact hnd1.1 (he ▸ hm)
      rw [List.map_cons]
      rw [show opsFor project p
            (SyncOperation.Delete e.1 :: rest.map (fun e => SyncOperation.Delete e.1)) =
          SyncOperation.Delete e.1 ::
            opsFor project p (rest.map (fun e => SyncOperation.Delete e.1)) from by
        simp [opsFor, opPath, he]]
      rw [ih hnd1.2, hrest, he]
      simp
    · rw [List.map_cons]
      rw [show opsFor project p
            (SyncOperation.Delete e.1 :: rest.map (fun e => SyncOperation.Delete e.1)) =
          opsFor project p (rest.map (fun e => SyncOperation.Delete e.1)) from by
        simp [opsFor, opPath, he]]
      rw [ih hnd1.2]
      simp [he]

theorem find?_key_of_mem (project : String) :
    ∀ (records : List FileHash) (r : FileHash), r ∈ records →
      (records.map (keyOf project)).Nodup →
      records.find? (fun r' => decide (keyOf project r' = keyOf project r)) = some r := by
  intro records
  induction records with
  | nil =>
    intro r hr
    cases hr
  | cons r0 rs ih =>
    intro r hr hnd
    rw [List.map_cons] at hnd
    have hnd1 := List.nodup_cons.1 hnd
    rcases List.mem_cons.1 hr with h1 | h1
    · subst h1
      simp [List.find?_cons]
    · have hk : keyOf project r0 ≠ keyOf project r := by
        intro hk
        exact hnd1.1 (hk ▸ List.mem_map.2 ⟨r, h1, rfl⟩)
      rw [List.find?_cons]
      simp only [hk, decide_False]
      exact ih r h1 hnd1.2

theorem eq_nil_of_alLookup_none {α : Type} {l : List (String × α)}
    (h : ∀ p, alLookup p l = none) : l = [] := by
  cases l with
  | nil => rfl
  | cons e rest =>
    have he := h e.1
    rw [alLookup_cons] at he
    simp at he

/-- C1: reconciling a remote index with creator-distinct scan records emits,
for every store path, at most one operation: nothing when the record's
digest equals the remote one, exactly one `Replace` when it differs,
exactly one `Create` when the path is absent from the remote index, and
exactly one `Delete` for every remote path no record matched. -/
theorem c1_diff_planner (project : String) (remote : List (String × Digest))
    (records : List FileHash)
    (hrem : (remote.map Prod.fst).Nodup)
    (hrec : (records.map (keyOf project)).Nodup) :
    (∀ r ∈ records, ∀ hsh, alLookup (keyOf project r) remote = some hsh →
      (r.blake3 = hsh →
        opsFor project (keyOf project r) (syncPlan project remote records) = []) ∧
      (r.blake3 ≠ hsh →
        opsFor project (keyOf project r) (syncPlan project remote records) =
          [SyncOperation.Replace r])) ∧
    (∀ r ∈ records, alLookup (keyOf project r) remote = none →
      opsFor project (keyOf project r) (syncPlan project remote records) =
        [SyncOperation.Create r]) ∧
    (∀ p hsh, alLookup p remote = some hsh → (∀ r ∈ records, keyOf project r ≠ p) →
      opsFor project p (syncPlan project remote records) = [SyncOperation.Delete p]) ∧
    (∀ p, (syncPlan project remote records).countP
        (fun op => decide (opPath project op = p)) ≤ 1) := by
  have hfoldnd : (((planFold project (remote, []) records).1.map Prod.fst)).Nodup :=
    ((planFold_fst_sublist project records remote).map Prod.fst).nodup hrem
  have hplan : ∀ q, opsFor project q (syncPlan project remote records) =
      opsFor project q (planFold project (remote, []) records).2 ++
        opsFor project q ((planFold project (remote, []) records).1.map
          (fun e => SyncOperation.Delete e.1)) := by
    intro q
    simp only [syncPlan]
    rw [opsFor_append]
  refine ⟨?_, ?_, ?_, ?_⟩
  · intro r hr hsh hl
    have hfind := find?_key_of_mem project records r hr hrec
    have hops := planFold_ops_filter project records remote (keyOf project r) hrec
    rw [hfind, hl] at hops
    have hdel : alLookup (keyOf project r) (planFold project (remote, []) records).1 =
        none := planFold_fst_lookup_of_mem project records remote r hr hrec
    have hdeletes := deletes_filter project (keyOf project r) _ hfoldnd
    rw [hdel] at hdeletes
    constructor
    · intro hbeq
      rw [hplan _, hops, hdeletes]
      simp [hbeq]
    · intro hbne
      rw [hplan _, hops, hdeletes]
      have hne : ¬ hsh = r.blake3 := fun h => hbne h.symm
      simp [hne]
  · intro r hr hl
    have hfind := find?_key_of_mem project records r hr hrec
    have hops := planFold_ops_filter project records remote (keyOf project r) hrec
    rw [hfind, hl] at hops
    have hdel : alLookup (keyOf project r) (planFold project (remote, []) records).1 =
        none := planFold_fst_lookup_of_mem project records remote r hr hrec
    have hdeletes := deletes_filter project (keyOf project r) _ hfoldnd
    rw [hdel] at hdeletes
    rw [hplan _, hops, hdeletes]
    simp
  · intro p hsh hl habs
    have hfindnone : records.find? (fun r => decide (keyOf project r = p)) = none :=
      List.find?_eq_none.2 (fun r' hr' => by simp [habs r' hr'])
    have hops := planFold_ops_filter project records remote p hrec
    rw [hfindnone] at hops
    have hdel : alLookup p (planFold project (remote, []) records).1 =
        alLookup p remote := planFold_fst_lookup_of_absent project records remote p habs
    have hdeletes := deletes_filter project p _ hfoldnd
    rw [hdel, hl] at hdeletes
    rw [hplan _, hops, hdeletes]
    simp
  · intro p
    have hlenf : (syncPlan project remote records).countP
        (fun op => decide (opPath project op = p)) =
        (opsFor project p (syncPlan project remote records)).length := by
      rw [List.countP_eq_length_filter]
      rfl
    rw [hlenf, hplan p, List.length_append]
    have hdeletes := deletes_filter project p _ hfoldnd
    have hops := planFold_ops_filter project records remote p hrec
    cases hfind : records.find? (fun r => decide (keyOf project r = p)) with
    | some r =>
      have hrmem : r ∈ records := List.mem_of_find?_eq_some hfind
      have hkey : keyOf project r = p := by simpa using List.find?_some hfind
      have hdelnone : alLookup p (planFold project (remote, []) records).1 = none := by
        rw [← hkey]
        exact planFold_fst_lookup_of_mem project records remote r hrmem hrec
      rw [hdelnone] at hdeletes
      rw [hdeletes]
      rw [hfind] at hops
      cases hl : alLookup p remote with
      | none =>
        rw [hl] at hops
        rw [hops]
        simp
      | some hsh =>
        rw [hl] at hops
        rw [hops]
        by_cases hb : hsh ≠ r.blake3 <;> simp [hb]
    | none =>
      rw [hfind] at hops
      rw [hops, hdeletes]
      cases alLookup p (planFold project (remote, []) records).1 <;> simp

theorem c1_diff_planner_witness :
    opsFor "p" (keyOf "p" ⟨"la", "/a", [1]⟩)
      (syncPlan "p" [("/p/a", [1]), ("/p/b", [2])]
        [⟨"la", "/a", [1]⟩, ⟨"lc", "/c", [3]⟩]) = [] ∧
    opsFor "p" (keyOf "p" ⟨"lc", "/c", [3]⟩)
      (syncPlan "p" [("/p/a", [1]), ("/p/b", [2])]
        [⟨"la", "/a", [1]⟩, ⟨"lc", "/c", [3]⟩]) =
      [SyncOperation.Create ⟨"lc", "/c", [3]⟩] ∧
    opsFor "p" "/p/b"
      (syncPlan "p" [("/p/a", [1]), ("/p/b", [2])]
        [⟨"la", "/a", [1]⟩, ⟨"lc", "/c", [3]⟩]) = [SyncOperation.Delete "/p/b"] := by
  have h := c1_diff_planner "p" [("/p/a", [1]), ("/p/b", [2])]
    [⟨"la", "/a", [1]⟩, ⟨"lc", "/c", [3]⟩] (by decide) (by decide)
  refine ⟨?_, ?_, ?_⟩
  · exact (h.1 ⟨"la", "/a", [1]⟩ (by decide) [1] (by decide)).1 rfl
  · exact h.2.1 ⟨"lc", "/c", [3]⟩ (by decide) (by decide)
  · exact h.2.2.1 "/p/b" [2] (by decide) (by decide)

/-- C9: when the remote listing's path-to-digest map is exactly the set of
keyed records the scan produced, the planner emits no operation at all and
`total_operations` is zero. -/
theorem c9_idempotent (project : String) (remote : List (String × Digest))
    (records : List FileHash)
    (hrem : (remote.map Prod.fst).Nodup)
    (hrec : (records.map (keyOf project)).Nodup)
    (hperm : remote.Perm (records.map (fun r => (keyOf project r, r.blake3)))) :
    syncPlan project remote records = [] ∧
    totalOperations project remote records = 0 := by
  have hops0 : (planFold project (remote, []) records).2 = [] := by
    refine List.eq_nil_iff_forall_not_mem.2 ?_
    intro op hop
    have hmem : op ∈ opsFor project (opPath project op)
        (planFold project (remote, []) records).2 :=
      List.mem_filter.2 ⟨hop, by simp⟩
    rw [planFold_ops_filter project records remote _ hrec] at hmem
    cases hfind : records.find?
        (fun r => decide (keyOf project r = opPath project op)) with
    | none =>
      rw [hfind] at hmem
      simp at hmem
    | some r =>
      have hrmem := List.mem_of_find?_eq_some hfind
      have hkey : keyOf project r = opPath project op := by
        simpa using List.find?_some hfind
      have hlook : alLookup (opPath project op) remote = some r.blake3 := by
        rw [← hkey]
        exact alLookup_some_of_mem_nodup hrem
          ((hperm.mem_iff).2 (List.mem_map.2 ⟨r, hrmem, rfl⟩))
      rw [hfind, hlook] at hmem
      simp at hmem
  have hfst : (planFold project (remote, []) records).1 = [] := by
    cases hfstv : (planFold project (remote, []) records).1 with
    | nil => rfl
    | cons e rest =>
      have hmem : e ∈ remote :=
        (planFold_fst_sublist project records remote).subset
          (hfstv ▸ List.mem_cons_self e rest)
      rcases List.mem_map.1 ((hperm.mem_iff).1 hmem) with ⟨r, hr, hre⟩
      have hnone := planFold_fst_lookup_of_mem project records remote r hr hrec
      have hk : keyOf project r = e.1 := by rw [← hre]
      rw [hk, hfstv, alLookup_cons] at hnone
      simp at hnone
  have hplan0 : syncPlan project remote records = [] := by
    simp only [syncPlan]
    rw [hops0, hfst]
    rfl
  exact ⟨hplan0, by simp [totalOperations, hplan0]⟩

theorem c9_idempotent_witness :
    syncPlan "p" [("/p/a", [1])] [⟨"la", "/a", [1]⟩] = [] ∧
    totalOperations "p" [("/p/a", [1])] [⟨"la", "/a", [1]⟩] = 0 :=
  c9_idempotent "p" [("/p/a", [1])] [⟨"la", "/a", [1]⟩]
    (by decide) (by decide) (by decide)

/-! Chunked-uploader lemmas. -/

theorem chunkWrites_small (content : List Nat) (first : Bool)
    (h : content.length < CHUNK) :
    chunkWrites content first = [(content, first, true)] := by
  rw [chunkWrites]
  simp [h]

theorem chunkWrites_big (content : List Nat) (first : Bool)
    (h : ¬ content.length < CHUNK) :
    chunkWrites content first =
      (content.take CHUNK, first, false) :: chunkWrites (content.drop CHUNK) false := by
  rw [chunkWrites]
  simp [h]

theorem runWrites_cons {σ : Type} (db : Database σ) (path : String)
    (w : List Nat × Bool × Bool) (ws : List (List Nat × Bool × Bool)) (s : σ)
    (last : Option Digest) :
    runWrites db path (w :: ws) s last =
      (match db.write path w.1 w.2.1 w.2.2 s with
      | Except.error e => Except.error e
      | Except.ok (s', h) => runWrites db path ws s' h) := rfl

theorem storeDatabase_write_ok {hash : List Nat → Digest} {path : String}
    {data : List Nat} {start finished : Bool} {s s' : Store} {r : Option Digest}
    (h : write_file_data hash path data start finished s = Except.ok (s', r)) :
    (storeDatabase hash).write path data start finished s = Except.ok (s', r) := by
  simp [storeDatabase, h]

theorem runWrites_chunk_append (hash : List Nat → Digest) (path : String) :
    ∀ (n : Nat) (content : List Nat), content.length ≤ n →
      ∀ (s : Store) (f : StoredFile) (last : Option Digest),
        alLookup path s = some f →
        ∃ s', runWrites (storeDatabase hash) path (chunkWrites content false) s last =
            Except.ok (s', some (hash (f.content ++ content))) ∧
          alLookup path s' =
            some ⟨f.content ++ content, some (hash (f.content ++ content))⟩ ∧
          ∀ q, q ≠ path → alLookup q s' = alLookup q s := by
  have final : ∀ (content : List Nat), content.length < CHUNK →
      ∀ (s : Store) (f : StoredFile) (last : Option Digest),
        alLookup path s = some f →
        ∃ s', runWrites (storeDatabase hash) path (chunkWrites content false) s last =
            Except.ok (s', some (hash (f.content ++ content))) ∧
          alLookup path s' =
            some ⟨f.content ++ content, some (hash (f.content ++ content))⟩ ∧
          ∀ q, q ≠ path → alLookup q s' = alLookup q s := by
    intro content hlt s f last hf
    have hw := write_file_data_some_false hash content true hf
    simp only [if_pos rfl, if_true] at hw
    rw [chunkWrites_small _ _ hlt, runWrites_cons, storeDatabase_write_ok hw]
    refine ⟨_, rfl, alLookup_storeInsert_self _ _ _, ?_⟩
    intro q hq
    exact alLookup_storeInsert_ne hq _ _
  intro n
  induction n with
  | zero =>
    intro content hlen s f last hf
    have hlt : content.length < CHUNK := by
      have h0 : content.length = 0 := Nat.le_zero.1 hlen
      rw [h0]
      decide
    exact final content hlt s f last hf
  | succ n ih =>
    intro content hlen s f last hf
    by_cases hlt : content.length < CHUNK
    · exact final content hlt s f last hf
    · rw [chunkWrites_big _ _ hlt]
      have hw := write_file_data_some_false hash (content.take CHUNK) false hf
      simp only [Bool.false_eq_true, if_false] at hw
      rw [runWrites_cons, storeDatabase_write_ok hw]
      have hdrop : (content.drop CHUNK).length ≤ n := by
        have hc : 0 < CHUNK := by decide
        simp only [List.length_drop]
        omega
      have hlook1 : alLookup path
          (storeInsert path ⟨f.content ++ content.take CHUNK, f.metadata⟩ s) =
          some ⟨f.content ++ content.take CHUNK, f.metadata⟩ :=
        alLookup_storeInsert_self _ _ _
      rcases ih (content.drop CHUNK) hdrop _ _ none hlook1 with ⟨s', hrun, hlook', hother⟩
      have hcat : (f.content ++ content.take CHUNK) ++ content.drop CHUNK =
          f.content ++ content := by
        rw [List.append_assoc, List.take_append_drop]
      rw [hcat] at hrun hlook'
      refine ⟨s', hrun, hlook', ?_⟩
      intro q hq
      rw [hother q hq]
      exact alLookup_storeInsert_ne hq _ _

theorem uploadAttempt_store (hash : List Nat → Digest) (path : String)
    (content : List Nat) (s : Store) :
    ∃ s', uploadAttempt (storeDatabase hash) path content s =
        Except.ok (s', some (hash content)) ∧
      alLookup path s' = some ⟨content, some (hash content)⟩ ∧
      ∀ q, q ≠ path → alLookup q s' = alLookup q s := by
  unfold uploadAttempt
  by_cases hlt : content.length < CHUNK
  · rw [chunkWrites_small _ _ hlt]
    cases hf : alLookup path s with
    | some f =>
      have hw := write_file_data_some_true hash content true hf
      simp only [if_pos rfl, if_true] at hw
      rw [runWrites_cons, storeDatabase_write_ok hw]
      refine ⟨_, rfl, alLookup_storeInsert_self _ _ _, ?_⟩
      intro q hq
      exact alLookup_storeInsert_ne hq _ _
    | none =>
      have hw := write_file_data_none_true hash content true hf
      simp only [if_pos rfl, if_true] at hw
      rw [runWrites_cons, storeDatabase_write_ok hw]
      refine ⟨_, rfl, alLookup_storeInsert_self _ _ _, ?_⟩
      intro q hq
      exact alLookup_storeInsert_ne hq _ _
  · rw [chunkWrites_big _ _ hlt]
    have hfirst : ∃ m, write_file_data hash path (content.take CHUNK) true false s =
        Except.ok (storeInsert path ⟨content.take CHUNK, m⟩ s, none) := by
      cases hf : alLookup path s with
      | some f =>
        have hw := write_file_data_some_true hash (content.take CHUNK) false hf
        simp only [Bool.false_eq_true, if_false] at hw
        exact ⟨f.metadata, hw⟩
      | none =>
        have hw := write_file_data_none_true hash (content.take CHUNK) false hf
        simp only [Bool.false_eq_true, if_false] at hw
        exact ⟨none, hw⟩
    rcases hfirst with ⟨m, hw⟩
    rw [runWrites_cons, storeDatabase_write_ok hw]
    have hlook1 : alLookup path (storeInsert path ⟨content.take CHUNK, m⟩ s) =
        some ⟨content.take CHUNK, m⟩ := alLookup_storeInsert_self _ _ _
    rcases runWrites_chunk_append hash path (content.drop CHUNK).length
        (content.drop CHUNK) le_rfl _ _ none hlook1 with ⟨s', hrun, hlook', hother⟩
    have hcat : content.take CHUNK ++ content.drop CHUNK = content :=
      List.take_append_drop _ _
    rw [hcat] at hrun hlook'
    dsimp only
    rw [hrun]
    refine ⟨s', rfl, hlook', ?_⟩
    intro q hq
    rw [hother q hq]
    exact alLookup_storeInsert_ne hq _ _

/-- C2: a verification mismatch makes `upload_file` restart the whole
transfer from byte zero against the same path with the next local read, and
because every attempt's first chunk carries `start = true` — truncating or
freshly creating the stored file — the content stored after a retried
upload is exactly the last attempt's bytes, never the concatenation of two
attempts. -/
theorem c2_upload_retry (hash : List Nat → Digest) (path : String) (expected : Digest)
    (c1 c2 : List Nat) (rest : List (Except UploadError (List Nat))) (s : Store)
    (h1 : hash c1 ≠ expected) (h2 : hash c2 = expected) :
    (∀ (content : List Nat) (rest' : List (Except UploadError (List Nat))) (t : Store),
      hash content ≠ expected →
      ∃ t', upload_file (storeDatabase hash) hash path (some expected)
          (Except.ok content :: rest') t =
        upload_file (storeDatabase hash) hash path (some expected) rest' t' ∧
        alLookup path t' = some ⟨content, some (hash content)⟩) ∧
    ∃ s2, upload_file (storeDatabase hash) hash path (some expected)
        (Except.ok c1 :: Except.ok c2 :: rest) s = Except.ok (some s2) ∧
      (alLookup path s2).map StoredFile.content = some c2 ∧
      (c1 ≠ [] → (alLookup path s2).map StoredFile.content ≠ some (c1 ++ c2)) := by
  have hstep : ∀ (content : List Nat) (rest' : List (Except UploadError (List Nat)))
      (t : Store), hash content ≠ expected →
      ∃ t', upload_file (storeDatabase hash) hash path (some expected)
          (Except.ok content :: rest') t =
        upload_file (storeDatabase hash) hash path (some expected) rest' t' ∧
        alLookup path t' = some ⟨content, some (hash content)⟩ := by
    intro content rest' t hne
    rcases uploadAttempt_store hash path content t with ⟨t', hatt, hlook, _⟩
    refine ⟨t', ?_, hlook⟩
    rw [upload_file, hatt]
    simp [hne]
  refine ⟨hstep, ?_⟩
  rcases hstep c1 (Except.ok c2 :: rest) s h1 with ⟨s1, heq1, _⟩
  rcases uploadAttempt_store hash path c2 s1 with ⟨s2, hatt2, hlook2, _⟩
  refine ⟨s2, ?_, ?_, ?_⟩
  · rw [heq1, upload_file, hatt2]
    simp [h2]
  · rw [hlook2]
    rfl
  · intro hc1
    rw [hlook2]
    intro hcontra
    have : c2 = c1 ++ c2 := by simpa using hcontra
    have hlen := congrArg List.length this
    rw [List.length_append] at hlen
    have : c1.length = 0 := by omega
    exact hc1 (List.eq_nil_of_length_eq_zero this)

theorem c2_upload_retry_witness :
    ∃ s2, upload_file (storeDatabase (fun l => l)) (fun l => l) "/p/f" (some [2])
        [Except.ok [1], Except.ok [2]] [] = Except.ok (some s2) ∧
      (alLookup "/p/f" s2).map StoredFile.content = some [2] ∧
      ([1] ≠ ([] : List Nat) →
        (alLookup "/p/f" s2).map StoredFile.content ≠ some ([1] ++ [2])) :=
  (c2_upload_retry (fun l => l) "/p/f" [2] [1] [2] [] []
    (by decide) rfl).2

/-- C8: within one upload operation, a failing local read aborts with its
error, a failing chunk write aborts the whole operation with its error (no
further chunk is written and no automatic retry happens, whatever attempts
remain), and only a final-digest verification mismatch makes the loop move
on to the next full attempt. -/
theorem c8_upload_error_aborts {σ : Type} (db : Database σ) (hash : List Nat → Digest)
    (path : String) (expected : Option Digest) (content : List Nat)
    (rest : List (Except UploadError (List Nat))) (s : σ) :
    (∀ e, uploadAttempt db path content s = Except.error e →
      upload_file db hash path expected (Except.ok content :: rest) s =
        Except.error e) ∧
    (∀ e, upload_file db hash path expected (Except.error e :: rest) s =
      Except.error e) ∧
    (∀ e (w : List Nat × Bool × Bool) (ws : List (List Nat × Bool × Bool)) (t : σ)
        (last : Option Digest),
      db.write path w.1 w.2.1 w.2.2 t = Except.error e →
      runWrites db path (w :: ws) t last = Except.error e) ∧
    (∀ s' h, uploadAttempt db path content s = Except.ok (s', some h) →
      h ≠ expected.getD (hash content) →
      upload_file db hash path expected (Except.ok content :: rest) s =
        upload_file db hash path expected rest s') := by
  refine ⟨?_, ?_, ?_, ?_⟩
  · intro e he
    rw [upload_file, he]
  · intro e
    rw [upload_file]
  · intro e w ws t last hw
    rw [runWrites_cons, hw]
  · intro s' h hatt hne
    rw [upload_file, hatt]
    simp [hne]

theorem c8_upload_error_aborts_witness :
    upload_file (⟨fun _ _ _ _ _ => Except.error (UploadError.api ApiError.Deleted)⟩ :
        Database Unit) (fun l => l) "/p" (some [2]) [Except.ok [1]] () =
      Except.error (UploadError.api ApiError.Deleted) ∧
    upload_file (storeDatabase (fun l => l)) (fun l => l) "/p" (some [9])
        [Except.ok [1], Except.ok [3]] [] =
      upload_file (storeDatabase (fun l => l)) (fun l => l) "/p" (some [9])
        [Except.ok [3]] [("/p", ⟨[1], some [1]⟩)] := by
  constructor
  · refine (c8_upload_error_aborts _ (fun l => l) "/p" (some [2]) [1] [] ()).1
      (UploadError.api ApiError.Deleted) ?_
    unfold uploadAttempt
    rw [chunkWrites_small _ _ (by decide), runWrites_cons]
  · refine (c8_upload_error_aborts (storeDatabase (fun l => l)) (fun l => l) "/p"
      (some [9]) [1] [Except.ok [3]] []).2.2.2 [("/p", ⟨[1], some [1]⟩)] [1] ?_ (by decide)
    unfold uploadAttempt
    rw [chunkWrites_small _ _ (by decide), runWrites_cons]
    rfl

/-! Listing and partial-upload lemmas. -/

theorem list_files_cons (base : String) (e : String × StoredFile) (rest : Store) :
    list_files base (e :: rest) =
      (if strIsPrefix base e.1 = true then
        (match e.2.metadata with
        | some d => [(e.1, d)]
        | none => []) else []) ++ list_files base rest := by
  rw [list_files, list_files, List.filter_cons]
  by_cases hp : strIsPrefix base e.1 = true
  · rw [if_pos hp, if_pos hp, List.filterMap_cons]
    cases e.2.metadata <;> simp
  · rw [if_neg hp, if_neg hp]
    simp

theorem list_files_keys_sublist (base : String) :
    ∀ t : Store, ((list_files base t).map Prod.fst).Sublist (t.map Prod.fst) := by
  intro t
  induction t with
  | nil => exact List.Sublist.refl _
  | cons e rest ih =>
    rw [list_files_cons, List.map_append, List.map_cons]
    by_cases hp : strIsPrefix base e.1 = true
    · rw [if_pos hp]
      cases hm : e.2.metadata with
      | some d =>
        simp only [List.map_cons, List.map_nil]
        exact List.Sublist.cons₂ e.1 ih
      | none =>
        simp only [List.map_nil, List.nil_append]
        exact ih.cons e.1
    · rw [if_neg hp]
      simp only [List.map_nil, List.nil_append]
      exact ih.cons e.1

theorem mem_list_files_iff {base : String} {t : Store} (hnd : (t.map Prod.fst).Nodup)
    (p : String) (d : Digest) :
    (p, d) ∈ list_files base t ↔
      (strIsPrefix base p = true ∧ ∃ f, alLookup p t = some f ∧ f.metadata = some d) := by
  constructor
  · intro hmem
    rw [list_files] at hmem
    rcases List.mem_filterMap.1 hmem with ⟨e, he, hg⟩
    rcases List.mem_filter.1 he with ⟨het, hpred⟩
    rcases e with ⟨pe, fe⟩
    cases hm : fe.metadata with
    | none =>
      rw [hm] at hg
      cases hg
    | some d0 =>
      rw [hm] at hg
      simp at hg
      rcases hg with ⟨he1, hd0⟩
      refine ⟨by rw [← he1]; exact hpred, fe, ?_, by rw [hm, hd0]⟩
      rw [← he1]
      exact alLookup_some_of_mem_nodup hnd het
  · rintro ⟨hpre, f, hlook, hmeta⟩
    rw [list_files]
    refine List.mem_filterMap.2
      ⟨(p, f), List.mem_filter.2 ⟨mem_of_alLookup_some hlook, hpre⟩, ?_⟩
    rw [show (p, f).2.metadata = some d from hmeta]
    rfl

theorem write_file_data_nodup {hash : List Nat → Digest} {path : String}
    {data : List Nat} {start finished : Bool} {s s' : Store} {r : Option Digest}
    (h : write_file_data hash path data start finished s = Except.ok (s', r))
    (hnd : (s.map Prod.fst).Nodup) : (s'.map Prod.fst).Nodup := by
  cases hl : alLookup path s with
  | some f =>
    cases start with
    | true =>
      rw [write_file_data_some_true hash data finished hl] at h
      cases finished <;> simp at h <;> rcases h with ⟨hs, _⟩ <;> rw [← hs] <;>
        exact nodup_keys_storeInsert hnd
    | false =>
      rw [write_file_data_some_false hash data finished hl] at h
      cases finished <;> simp at h <;> rcases h with ⟨hs, _⟩ <;> rw [← hs] <;>
        exact nodup_keys_storeInsert hnd
  | none =>
    cases start with
    | true =>
      rw [write_file_data_none_true hash data finished hl] at h
      cases finished <;> simp at h <;> rcases h with ⟨hs, _⟩ <;> rw [← hs] <;>
        exact nodup_keys_storeInsert hnd
    | false =>
      rw [write_file_data_none_false hash data finished hl] at h
      cases h

theorem write_file_data_unfinished_metadata {hash : List Nat → Digest} {path : String}
    {data : List Nat} {start : Bool} {s s' : Store} {r : Option Digest}
    (hw : write_file_data hash path data start false s = Except.ok (s', r))
    (hinv : ∀ f, alLookup path s = some f → f.metadata = none) :
    ∀ f, alLookup path s' = some f → f.metadata = none := by
  cases hl : alLookup path s with
  | some f0 =>
    have hm0 := hinv f0 hl
    cases start with
    | true =>
      rw [write_file_data_some_true hash data false hl] at hw
      simp at hw
      rcases hw with ⟨hs, _⟩
      intro f hf
      rw [← hs, alLookup_storeInsert_self] at hf
      cases hf
      exact hm0
    | false =>
      rw [write_file_data_some_false hash data false hl] at hw
      simp at hw
      rcases hw with ⟨hs, _⟩
      intro f hf
      rw [← hs, alLookup_storeInsert_self] at hf
      cases hf
      exact hm0
  | none =>
    cases start with
    | true =>
      rw [write_file_data_none_true hash data false hl] at hw
      simp at hw
      rcases hw with ⟨hs, _⟩
      intro f hf
      rw [← hs, alLookup_storeInsert_self] at hf
      cases hf
      rfl
    | false =>
      rw [write_file_data_none_false hash data false hl] at hw
      cases hw

theorem unfinishedWrites_cons (hash : List Nat → Digest) (path : String)
    (w : List Nat × Bool) (rest : List (List Nat × Bool)) (s : Store) :
    unfinishedWrites hash path (w :: rest) s =
      (match write_file_data hash path w.1 w.2 false s with
      | Except.error e => Except.error e
      | Except.ok (s', _) => unfinishedWrites hash path rest s') := rfl

theorem unfinishedWrites_metadata_none (hash : List Nat → Digest) (path : String) :
    ∀ (ws : List (List Nat × Bool)) (s s' : Store),
      (∀ f, alLookup path s = some f → f.metadata = none) →
      unfinishedWrites hash path ws s = Except.ok s' →
      ∀ f, alLookup path s' = some f → f.metadata = none := by
  intro ws
  induction ws with
  | nil =>
    intro s s' hinv h
    simp [unfinishedWrites] at h
    rw [← h]
    exact hinv
  | cons w rest ih =>
    intro s s' hinv h
    rw [unfinishedWrites_cons] at h
    cases hwr : write_file_data hash path w.1 w.2 false s with
    | error e =>
      rw [hwr] at h
      cases h
    | ok p =>
      rw [hwr] at h
      rcases p with ⟨s1, r⟩
      exact ih s1 s' (write_file_data_unfinished_metadata hwr hinv) h

theorem unfinishedWrites_nodup (hash : List Nat → Digest) (path : String) :
    ∀ (ws : List (List Nat × Bool)) (s s' : Store),
      (s.map Prod.fst).Nodup →
      unfinishedWrites hash path ws s = Except.ok s' →
      (s'.map Prod.fst).Nodup := by
  intro ws
  induction ws with
  | nil =>
    intro s s' hnd h
    simp [unfinishedWrites] at h
    rw [← h]
    exact hnd
  | cons w rest ih =>
    intro s s' hnd h
    rw [unfinishedWrites_cons] at h
    cases hwr : write_file_data hash path w.1 w.2 false s with
    | error e =>
      rw [hwr] at h
      cases h
    | ok p =>
      rw [hwr] at h
      rcases p with ⟨s1, r⟩
      exact ih s1 s' (write_file_data_nodup hwr hnd) h

/-- C10: `list_files` returns exactly the stored files carrying recorded
digest metadata; a file whose upload never issued a finished chunk write has
no metadata and is silently omitted from the listing, and a scan record for
that path is therefore re-planned as a `Create` on the next sync. -/
theorem c10_list_files_metadata (hash : List Nat → Digest)
    (base path project : String) (ws : List (List Nat × Bool)) (s s' : Store)
    (records : List FileHash) (r : FileHash)
    (hnd : (s.map Prod.fst).Nodup)
    (h0 : alLookup path s = none)
    (hw : unfinishedWrites hash path ws s = Except.ok s') :
    (∀ t : Store, (t.map Prod.fst).Nodup → ∀ p d,
      ((p, d) ∈ list_files base t ↔
        (strIsPrefix base p = true ∧ ∃ f, alLookup p t = some f ∧ f.metadata = some d))) ∧
    (∀ d, (path, d) ∉ list_files base s') ∧
    (r ∈ records → keyOf project r = path →
      (records.map (keyOf project)).Nodup →
      opsFor project path (syncPlan project (list_files base s') records) =
        [SyncOperation.Create r]) := by
  have hnd' : (s'.map Prod.fst).Nodup := unfinishedWrites_nodup hash path ws s s' hnd hw
  have hinv0 : ∀ f, alLookup path s = some f → f.metadata = none := by
    intro f hf
    rw [h0] at hf
    cases hf
  have hmeta : ∀ f, alLookup path s' = some f → f.metadata = none :=
    unfinishedWrites_metadata_none hash path ws s s' hinv0 hw
  have hnotin : ∀ d, (path, d) ∉ list_files base s' := by
    intro d hmem
    rcases ((mem_list_files_iff hnd' path d).1 hmem) with ⟨_, f, hlook, hfd⟩
    rw [hmeta f hlook] at hfd
    cases hfd
  refine ⟨fun t hndt p d => mem_list_files_iff hndt p d, hnotin, ?_⟩
  intro hr hk hrecnd
  have hrem_nd : ((list_files base s').map Prod.fst).Nodup :=
    (list_files_keys_sublist base s').nodup hnd'
  have hlooknone : alLookup path (list_files base s') = none := by
    cases hlr : alLookup path (list_files base s') with
    | some d => exact absurd (mem_of_alLookup_some hlr) (hnotin d)
    | none => rfl
  have hfoldnd : (((planFold project (list_files base s', []) records).1.map
      Prod.fst)).Nodup :=
    ((planFold_fst_sublist project records _).map Prod.fst).nodup hrem_nd
  have hfind := find?_key_of_mem project records r hr hrecnd
  rw [hk] at hfind
  have hops := planFold_ops_filter project records (list_files base s') path hrecnd
  rw [hfind, hlooknone] at hops
  have hdel := planFold_fst_lookup_of_mem project records (list_files base s') r hr hrecnd
  rw [hk] at hdel
  have hdeletes := deletes_filter project path _ hfoldnd
  rw [hdel] at hdeletes
  have hplan : opsFor project path (syncPlan project (list_files base s') records) =
      opsFor project path (planFold project (list_files base s', []) records).2 ++
        opsFor project path ((planFold project (list_files base s', []) records).1.map
          (fun e => SyncOperation.Delete e.1)) := by
    simp only [syncPlan]
    rw [opsFor_append]
  rw [hplan, hops, hdeletes]
  simp

theorem c10_list_files_metadata_witness :
    (∀ d, ("/p/a", d) ∉ list_files "/p/" [("/p/a", ⟨[5], none⟩)]) ∧
    opsFor "p" "/p/a"
      (syncPlan "p" (list_files "/p/" [("/p/a", ⟨[5], none⟩)]) [⟨"la", "/a", [1]⟩]) =
      [SyncOperation.Create ⟨"la", "/a", [1]⟩] := by
  have h := c10_list_files_metadata (fun l => l) "/p/" "/p/a" "p" [([5], true)] []
    [("/p/a", ⟨[5], none⟩)] [⟨"la", "/a", [1]⟩] ⟨"la", "/a", [1]⟩
    (by decide) rfl rfl
  exact ⟨h.2.1, h.2.2 (by decide) (by decide) (by decide)⟩

end Dossier
